import Mathlib

/-
  Shallow embedding of the rule-based study-artifact generator
  (sentence splitter, keyword extractor, notes, summary, flashcards,
  MCQ and mindmap generators, and the dispatcher).  Strings are
  modelled as lists of characters; Python operations (strip, lower,
  split, slicing with negative bounds, dict insertion order, stable
  descending sort, list.index) are embedded explicitly.  The in-place
  random shuffle of MCQ options is modelled by an explicit shuffle
  parameter; theorems assume only that it permutes its argument.
  Operations that can raise in Python (list.index) return Option.
-/

namespace StudyHelper

abbrev Str := List Char

/-- Python whitespace characters stripped by str.strip. -/
def isPyWs (c : Char) : Bool :=
  c == ' ' || c == '\t' || c == '\n' || c == '\r' || c == '\x0b' || c == '\x0c'

/-- Python str.strip: drop whitespace from both ends. -/
def pyStrip (l : Str) : Str :=
  ((l.dropWhile isPyWs).reverse.dropWhile isPyWs).reverse

/-- Python text.replace with newline replaced by a space. -/
def replaceNl (l : Str) : Str :=
  l.map fun c => if c = '\n' then ' ' else c

/-- Python str.lower restricted to ASCII letters. -/
def pyLower (l : Str) : Str :=
  l.map Char.toLower

/-- Python str.title restricted to ASCII letters: helper walking the string. -/
def titleGo : Bool → Str → Str
  | _, [] => []
  | prev, c :: cs =>
    (if c.isAlpha then (if prev then c.toLower else c.toUpper) else c) :: titleGo c.isAlpha cs

/-- Python str.title restricted to ASCII letters. -/
def pyTitle (l : Str) : Str := titleGo false l

/-- Python slicing l[:n], allowing negative n. -/
def pySlice (n : Int) (l : List α) : List α :=
  if 0 ≤ n then l.take n.toNat else l.take ((l.length : Int) + n).toNat

/-- Python str.split on a single character. -/
def splitC (c : Char) : Str → List Str
  | [] => [[]]
  | d :: rest =>
    if d = c then [] :: splitC c rest
    else
      match splitC c rest with
      | [] => [[d]]
      | h :: t => (d :: h) :: t

/-- Python list.index returning the first index, none when absent (raise). -/
def pyIndex? (a : Str) : List Str → Option Nat
  | [] => none
  | b :: bs => if b = a then some 0 else (pyIndex? a bs).map (· + 1)

/-- Whether the first list starts the second (helper for the substring
test used by the Python in operator). -/
def startsWith : Str → Str → Bool
  | [], _ => true
  | _ :: _, [] => false
  | a :: as, b :: bs => a == b && startsWith as bs

/-- Python substring membership: k in s. -/
def isSubstr (k : Str) : Str → Bool
  | [] => startsWith k []
  | c :: rest => startsWith k (c :: rest) || isSubstr k rest

/-- Map a fallible step over a list, failing when any step fails. -/
def optMap (f : α → Option β) : List α → Option (List β)
  | [] => some []
  | a :: as =>
    match f a, optMap f as with
    | some b, some bs => some (b :: bs)
    | _, _ => none

/-- Source: def _sentences.  Replace newlines by spaces, split on periods,
strip each piece and keep the non-empty ones. -/
def sentences (text : Str) : List Str :=
  ((splitC '.' (replaceNl text)).map pyStrip).filter fun s => decide (s ≠ [])

/-- Character class of the token pattern: letters and hyphens. -/
def isTokChar (c : Char) : Bool := c.isAlpha || c == '-'

/-- Scanner for the regex finding maximal tokens that start with a letter
followed by at least one letter or hyphen.  The first argument is the
token being built, in reverse, when inside a candidate token. -/
def tokGo : Option Str → Str → List Str
  | none, [] => []
  | none, c :: cs => if c.isAlpha then tokGo (some [c]) cs else tokGo none cs
  | some acc, [] => if 2 ≤ acc.length then [acc.reverse] else []
  | some acc, c :: cs =>
    if isTokChar c then tokGo (some (c :: acc)) cs
    else if 2 ≤ acc.length then acc.reverse :: tokGo none cs
    else tokGo none cs

/-- Source: re.findall of the word pattern over the text. -/
def tokenize (l : Str) : List Str := tokGo none l

/-- The fixed stop-word set of the keyword extractor. -/
def stopWords : List Str :=
  (["a", "an", "the", "and", "or", "but", "if", "then", "else", "for",
    "to", "of", "in", "on", "at", "by", "with", "from", "into", "over",
    "after", "before", "during", "is", "are", "was", "were", "be",
    "been", "being"]).map String.toList

/-- The tokens of the lowered text that survive the stop-word and
minimum-length filter, in text order (the loop body filter). -/
def survivors (text : Str) : List Str :=
  (tokenize (pyLower text)).filter fun w =>
    !(decide (w ∈ stopWords) || decide (w.length < 3))

/-- One step of the frequency-dictionary build: bump an existing key in
place, or append a fresh key (Python dict preserves insertion order). -/
def addW (acc : List (Str × Nat)) (w : Str) : List (Str × Nat) :=
  if acc.any fun p => decide (p.1 = w) then
    acc.map fun p => if p.1 = w then (p.1, p.2 + 1) else p
  else acc ++ [(w, 1)]

/-- The frequency dictionary as an insertion-ordered association list. -/
def freqList (text : Str) : List (Str × Nat) :=
  (survivors text).foldl addW []

/-- Stable insertion for the descending-by-count sort: an element goes
after every earlier element of greater or equal count. -/
def insertDesc (x : Str × Nat) : List (Str × Nat) → List (Str × Nat)
  | [] => [x]
  | y :: ys => if x.2 < y.2 then y :: insertDesc x ys else x :: y :: ys

/-- Stable sort by descending count, as Python sorted with reverse on the
count key (stable: ties keep their insertion order). -/
def sortDesc : List (Str × Nat) → List (Str × Nat)
  | [] => []
  | x :: xs => insertDesc x (sortDesc xs)

/-- Source: def _top_keywords.  Sort the frequency items by descending
count, truncate to k, and keep the words. -/
def top_keywords (text : Str) (k : Int) : List Str :=
  (pySlice k (sortDesc (freqList text))).map Prod.fst

/-- First-occurrence deduplication: the order in which a Python dict built
by the frequency loop lists its keys. -/
def dedupF : List Str → List Str
  | [] => []
  | w :: ws => w :: (dedupF ws).filter fun v => decide (v ≠ w)

/-- Lookup of the count stored for a word in the association list. -/
def cntIn (w : Str) : List (Str × Nat) → Nat
  | [] => 0
  | p :: rest => if p.1 = w then p.2 else cntIn w rest

/-- Index of the first occurrence of a word in a list. -/
def idxIn (w : Str) : List Str → Nat
  | [] => 0
  | v :: vs => if v = w then 0 else idxIn w vs + 1

/-- Occurrence count of a word among the surviving tokens. -/
def kwCount (text : Str) (w : Str) : Nat := List.count w (survivors text)

/-- First-seen rank of a word among the distinct surviving tokens. -/
def kwRank (text : Str) (w : Str) : Nat := idxIn w (dedupF (survivors text))

/-- The intended keyword ordering: strictly more frequent first, ties in
first-seen order. -/
def kwOrder (text : Str) (a b : Str) : Prop :=
  kwCount text b < kwCount text a ∨
    (kwCount text a = kwCount text b ∧ kwRank text a < kwRank text b)

/-- Source: def generate_notes. -/
def generate_notes (text : Str) (n : Int) : List Str :=
  let sents := sentences text
  let bullets := (pySlice n sents).map fun s => "• ".toList ++ s
  if bullets = [] then ["No content recognized.".toList] else bullets

/-- Source: def generate_summary. -/
def generate_summary (text : Str) (n : Int) : Str :=
  let sents := sentences text
  if sents = [] then "No content provided.".toList
  else List.intercalate (" ".toList) (pySlice n sents)

structure Flashcard where
  question : Str
  answer : Str
deriving DecidableEq

/-- Source: def generate_flashcards. -/
def generate_flashcards (text : Str) (n : Int) : List Flashcard :=
  let keys := top_keywords text (max 3 n)
  let sents := sentences text
  let cards := (pySlice n keys).map fun k =>
    let hint := sents.find? fun s => isSubstr k (pyLower s)
    let answer :=
      match hint with
      | some s =>
        if s = [] then "Definition/context for ".toList ++ k ++ " from the text.".toList else s
      | none => "Definition/context for ".toList ++ k ++ " from the text.".toList
    { question := "What is ".toList ++ k ++ "?".toList, answer := answer }
  if cards = [] then
    [{ question := "What is the main idea?".toList, answer := generate_summary text 3 }]
  else cards

structure MCQ where
  question : Str
  options : List Str
  answer_index : Nat
deriving DecidableEq

/-- The literal fallback MCQ produced when no keywords exist. -/
def fallbackMCQ : MCQ :=
  { question := "What is the main idea?".toList,
    options := ["Summary".toList, "Detail".toList, "Example".toList, "Opinion".toList],
    answer_index := 0 }

/-- One loop iteration of the MCQ generator for keyword k: question text,
three distractors (padded with a literal when fewer are available),
shuffled options, and the index of k in the shuffled options. -/
def mkMCQ (shuffle : List Str → List Str) (keys sents : List Str) (k : Str) : Option MCQ :=
  let found := sents.find? fun s => isSubstr k (pyLower s)
  let base :=
    match found with
    | some s =>
      if s = [] then "Identify the concept related to \x27".toList ++ k ++ "\x27.".toList else s
    | none => "Identify the concept related to \x27".toList ++ k ++ "\x27.".toList
  let ds := (keys.filter fun d => decide (d ≠ k)).take 3
  let ds2 := ds ++ List.replicate (3 - ds.length) ("Not ".toList ++ k)
  let options := shuffle (ds2 ++ [k])
  (pyIndex? k options).map fun i =>
    { question := base, options := options, answer_index := i }

/-- Source: def generate_mcqs. -/
def generate_mcqs (shuffle : List Str → List Str) (text : Str) (n : Int) :
    Option (List MCQ) :=
  let keys := top_keywords text (n + 3)
  let sents := sentences text
  match optMap (mkMCQ shuffle keys sents) (pySlice n keys) with
  | none => none
  | some out => some (if out = [] then [fallbackMCQ] else out)

structure MindMapNode where
  id : Str
  label : Str
deriving DecidableEq

structure MindMapEdge where
  frm : Str
  toId : Str
deriving DecidableEq

structure MindMap where
  nodes : List MindMapNode
  edges : List MindMapEdge
deriving DecidableEq

/-- Source: def generate_mindmap. -/
def generate_mindmap (text : Str) : MindMap :=
  let keys := top_keywords text 6
  { nodes :=
      { id := "root".toList, label := "Study Notes".toList } ::
        keys.enum.map fun p =>
          { id := "n".toList ++ (Nat.repr p.1).toList, label := pyTitle p.2 },
    edges :=
      keys.enum.map fun p =>
        { frm := "root".toList, toId := "n".toList ++ (Nat.repr p.1).toList } }

structure GenerateRequest where
  text : Str
  type : Str
  count : Option Int
deriving DecidableEq

structure GenerateResponse where
  type : Str
  notes : Option (List Str) := none
  summary : Option Str := none
  flashcards : Option (List Flashcard) := none
  mcqs : Option (List MCQ) := none
  quiz : Option (List MCQ) := none
  mindmap : Option MindMap := none
deriving DecidableEq

/-- Source: def generate (the dispatcher). -/
def generate (shuffle : List Str → List Str) (payload : GenerateRequest) :
    Option GenerateResponse :=
  let text := pyStrip payload.text
  if text = [] then
    some { type := payload.type, summary := some ("Please provide lesson text.".toList) }
  else
    let t := pyLower payload.type
    let count : Int :=
      match payload.count with
      | none => 5
      | some c => if c = 0 then 5 else c
    if t = "notes".toList then
      some { type := t, notes := some (generate_notes text count) }
    else if t = "summary".toList then
      some { type := t, summary := some (generate_summary text 3) }
    else if t = "flashcards".toList then
      some { type := t, flashcards := some (generate_flashcards text count) }
    else if t = "mcqs".toList then
      (generate_mcqs shuffle text count).map fun ms => { type := t, mcqs := some ms }
    else if t = "quiz".toList then
      (generate_mcqs shuffle text count).map fun ms => { type := t, quiz := some ms }
    else if t = "mindmap".toList then
      some { type := t, mindmap := some (generate_mindmap text) }
    else
      some { type := t, summary := some ("Unknown generation type.".toList) }

/-- Joining sentences with single periods, the construction used by the
round-trip property of the sentence splitter. -/
def joinDot : List Str → Str
  | [] => []
  | [s] => s
  | s :: s2 :: ss => s ++ '.' :: joinDot (s2 :: ss)

section SplitterLemmas

lemma splitC_of_not_mem {c : Char} {l : Str} (h : c ∉ l) : splitC c l = [l] := by
  induction l with
  | nil => rfl
  | cons d rest ih =>
    have hdc : ¬ d = c := fun he => h (he ▸ List.mem_cons_self d rest)
    have hrest : c ∉ rest := fun hm => h (List.mem_cons_of_mem d hm)
    simp [splitC, hdc, ih hrest]

lemma splitC_append {c : Char} {a : Str} (b : Str) (h : c ∉ a) :
    splitC c (a ++ c :: b) = a :: splitC c b := by
  induction a with
  | nil => simp [splitC]
  | cons d a' ih =>
    have hdc : ¬ d = c := fun he => h (he ▸ List.mem_cons_self d a')
    have ha' : c ∉ a' := fun hm => h (List.mem_cons_of_mem d hm)
    simp only [List.cons_append, splitC, hdc, if_false]
    rw [show a'.append (c :: b) = a' ++ (c :: b) from rfl, ih ha']

lemma pyStrip_eq_nil_iff {l : Str} : pyStrip l = [] ↔ ∀ c ∈ l, isPyWs c := by
  unfold pyStrip
  rw [List.reverse_eq_nil_iff, List.dropWhile_eq_nil_iff]
  constructor
  · intro h c hc
    rcases List.mem_append.mp ((List.takeWhile_append_dropWhile isPyWs l) ▸ hc) with h1 | h1
    · exact List.mem_takeWhile_imp h1
    · exact h c (List.mem_reverse.mpr h1)
  · intro h c hc
    exact h c ((List.dropWhile_sublist isPyWs).subset (List.mem_reverse.mp hc))

lemma not_dot_mem_replaceNl {text : Str} (h : '.' ∉ text) : '.' ∉ replaceNl text := by
  intro hm
  rcases List.mem_map.mp hm with ⟨c, hc, he⟩
  by_cases hcn : c = '\n'
  · simp [hcn] at he
  · simp [hcn] at he
    exact h (he ▸ hc)

lemma pyStrip_replaceNl_ne_nil {text : Str} (h : pyStrip text ≠ []) :
    pyStrip (replaceNl text) ≠ [] := by
  intro hnil
  apply h
  rw [pyStrip_eq_nil_iff] at hnil ⊢
  intro c hc
  by_cases hcn : c = '\n'
  · subst hcn; rfl
  · have : (if c = '\n' then ' ' else c) ∈ replaceNl text := List.mem_map_of_mem _ hc
    simpa [hcn] using hnil _ this

end SplitterLemmas

/-- Claim C3 counterexample: on the period-free, non-blank input consisting
of the two-letter words ab and cd separated by a newline, the splitter
returns a single element that differs from the trimmed input, because the
splitter first replaces the newline by a space. -/
theorem c3_counterexample :
    sentences ("ab\ncd".toList) ≠ [pyStrip ("ab\ncd".toList)] ∧
      ('.' ∉ "ab\ncd".toList) ∧ pyStrip ("ab\ncd".toList) ≠ [] := by
  refine ⟨?_, ?_, ?_⟩ <;> decide

/-- Claim C3 (amended): for input that is non-empty after trimming and
contains no period, the splitter returns exactly one element, namely the
input with each newline replaced by a space and then trimmed. -/
theorem c3_single_sentence (text : Str) (h1 : '.' ∉ text) (h2 : pyStrip text ≠ []) :
    sentences text = [pyStrip (replaceNl text)] := by
  unfold sentences
  rw [splitC_of_not_mem (not_dot_mem_replaceNl h1)]
  simp [List.filter, pyStrip_replaceNl_ne_nil h2]

/-- Claim C3 witness: a concrete period-free non-blank input. -/
theorem c3_witness : sentences ("ab".toList) = [pyStrip (replaceNl ("ab".toList))] :=
  c3_single_sentence ("ab".toList) (by decide) (by decide)

section RoundTrip

lemma mem_joinDot {c : Char} : ∀ {ss : List Str}, c ∈ joinDot ss →
    c = '.' ∨ ∃ s ∈ ss, c ∈ s := by
  intro ss
  induction ss with
  | nil => intro h; simp [joinDot] at h
  | cons s ss ih =>
    cases ss with
    | nil =>
      intro h
      exact Or.inr ⟨s, List.mem_cons_self _ _, h⟩
    | cons s2 ss2 =>
      intro h
      rcases List.mem_append.mp h with h1 | h1
      · exact Or.inr ⟨s, List.mem_cons_self _ _, h1⟩
      · rcases List.mem_cons.mp h1 with h2 | h2
        · exact Or.inl h2
        · rcases ih h2 with h3 | ⟨t, ht, hct⟩
          · exact Or.inl h3
          · exact Or.inr ⟨t, List.mem_cons_of_mem _ ht, hct⟩

lemma splitC_joinDot : ∀ {ss : List Str}, ss ≠ [] → (∀ s ∈ ss, '.' ∉ s) →
    splitC '.' (joinDot ss) = ss := by
  intro ss
  induction ss with
  | nil => intro h; exact absurd rfl h
  | cons s ss ih =>
    intro _ hdot
    cases ss with
    | nil => exact splitC_of_not_mem (hdot s (List.mem_cons_self _ _))
    | cons s2 ss2 =>
      show splitC '.' (s ++ '.' :: joinDot (s2 :: ss2)) = _
      rw [splitC_append _ (hdot s (List.mem_cons_self _ _))]
      rw [ih (by simp) (fun t ht => hdot t (List.mem_cons_of_mem _ ht))]

/-- Claim C9 counterexample: a single sentence containing an interior
newline (non-empty, trimmed, period-free) is not reproduced by splitting
its join, because the splitter replaces the newline by a space. -/
theorem c9_counterexample :
    sentences (joinDot ["ab\ncd".toList]) ≠ ["ab\ncd".toList] ∧
      "ab\ncd".toList ≠ [] ∧ pyStrip ("ab\ncd".toList) = "ab\ncd".toList ∧
      '.' ∉ "ab\ncd".toList := by
  refine ⟨?_, ?_, ?_, ?_⟩ <;> decide

/-- Claim C9 (amended): splitting the period-join of sentences that are
non-empty, already trimmed, period-free and newline-free reproduces the
sentences exactly. -/
theorem c9_roundtrip (ss : List Str)
    (h : ∀ s ∈ ss, s ≠ [] ∧ pyStrip s = s ∧ '.' ∉ s ∧ '\n' ∉ s) :
    sentences (joinDot ss) = ss := by
  cases ss with
  | nil => rfl
  | cons s0 ss0 =>
    unfold sentences
    have hnl : '\n' ∉ joinDot (s0 :: ss0) := by
      intro hm
      rcases mem_joinDot hm with h1 | ⟨t, ht, hct⟩
      · simp at h1
      · exact (h t ht).2.2.2 hct
    have hrepl : replaceNl (joinDot (s0 :: ss0)) = joinDot (s0 :: ss0) := by
      unfold replaceNl
      rw [show (joinDot (s0 :: ss0)).map (fun c => if c = '\n' then ' ' else c) =
            (joinDot (s0 :: ss0)).map id from
          List.map_congr_left (fun c hc => by
            have : ¬ c = '\n' := fun he => hnl (he ▸ hc)
            simp [this])]
      exact List.map_id _
    rw [hrepl, splitC_joinDot (by simp) (fun t ht => (h t ht).2.2.1)]
    rw [show (s0 :: ss0).map pyStrip = (s0 :: ss0).map id from
        List.map_congr_left (fun t ht => (h t ht).2.1)]
    rw [List.map_id]
    exact List.filter_eq_self.mpr (fun t ht => by
      simpa using (h t ht).1)

/-- Claim C9 witness: the round trip at a concrete two-sentence list. -/
theorem c9_roundtrip_witness :
    sentences (joinDot ["ab".toList, "cd".toList]) = ["ab".toList, "cd".toList] :=
  c9_roundtrip ["ab".toList, "cd".toList] (by decide)

end RoundTrip

/-- Claim C4: on text that is empty after trimming, the dispatcher returns
the fixed prompt in the summary slot, echoes the requested type, and
leaves every other artifact slot empty. -/
theorem c4_blank_text (shuffle : List Str → List Str) (payload : GenerateRequest)
    (h : pyStrip payload.text = []) :
    generate shuffle payload =
      some { type := payload.type, notes := none,
             summary := some ("Please provide lesson text.".toList),
             flashcards := none, mcqs := none, quiz := none, mindmap := none } := by
  simp [generate, h]

/-- Claim C4 witness: a concrete whitespace-only request. -/
theorem c4_blank_text_witness :
    generate (fun l => l) ⟨" \t\n".toList, "FLASHcards".toList, some 3⟩ =
      some { type := "FLASHcards".toList, notes := none,
             summary := some ("Please provide lesson text.".toList),
             flashcards := none, mcqs := none, quiz := none, mindmap := none } :=
  c4_blank_text (fun l => l) ⟨" \t\n".toList, "FLASHcards".toList, some 3⟩ (by decide)

section Totality

lemma pyIndex?_isSome_of_mem {a : Str} : ∀ {l : List Str}, a ∈ l → (pyIndex? a l).isSome := by
  intro l
  induction l with
  | nil => intro h; simp at h
  | cons b bs ih =>
    intro h
    by_cases hba : b = a
    · simp [pyIndex?, hba]
    · have : a ∈ bs := by
        rcases List.mem_cons.mp h with h1 | h1
        · exact absurd h1.symm hba
        · exact h1
      have hs := ih this
      rw [Option.isSome_iff_exists] at hs
      obtain ⟨j, hj⟩ := hs
      simp [pyIndex?, hba, hj]

lemma pyIndex?_get? {a : Str} : ∀ {l : List Str} {i : Nat},
    pyIndex? a l = some i → l.get? i = some a := by
  intro l
  induction l with
  | nil => intro i h; simp [pyIndex?] at h
  | cons b bs ih =>
    intro i h
    by_cases hba : b = a
    · simp [pyIndex?, hba] at h
      subst h
      simp [hba]
    · simp [pyIndex?, hba] at h
      obtain ⟨j, hj, hij⟩ := h
      subst hij
      simpa using ih hj

lemma optMap_isSome {f : α → Option β} : ∀ {l : List α},
    (∀ a ∈ l, (f a).isSome) → (optMap f l).isSome := by
  intro l
  induction l with
  | nil => intro _; simp [optMap]
  | cons a as ih =>
    intro h
    have ha := h a (List.mem_cons_self _ _)
    rw [Option.isSome_iff_exists] at ha
    obtain ⟨b, hb⟩ := ha
    have has := ih (fun x hx => h x (List.mem_cons_of_mem _ hx))
    rw [Option.isSome_iff_exists] at has
    obtain ⟨bs, hbs⟩ := has
    simp [optMap, hb, hbs]

lemma optMap_mem {f : α → Option β} : ∀ {l : List α} {out : List β},
    optMap f l = some out → ∀ b ∈ out, ∃ a ∈ l, f a = some b := by
  intro l
  induction l with
  | nil =>
    intro out h b hb
    simp [optMap] at h
    subst h
    simp at hb
  | cons a as ih =>
    intro out h b hb
    cases hfa : f a with
    | none => simp [optMap, hfa] at h
    | some b0 =>
      cases hrest : optMap f as with
      | none => simp [optMap, hfa, hrest] at h
      | some bs =>
        simp [optMap, hfa, hrest] at h
        subst h
        rcases List.mem_cons.mp hb with h1 | h1
        · exact ⟨a, List.mem_cons_self _ _, h1 ▸ hfa⟩
        · obtain ⟨a', ha', hfa'⟩ := ih hrest b h1
          exact ⟨a', List.mem_cons_of_mem _ ha', hfa'⟩

lemma isSomeMapEq (f : α → β) (o : Option α) : (o.map f).isSome = o.isSome := by
  cases o <;> rfl

lemma mkMCQ_isSome (shuffle : List Str → List Str)
    (hsh : ∀ l, List.Perm (shuffle l) l) (keys sents : List Str) (k : Str) :
    (mkMCQ shuffle keys sents k).isSome := by
  simp only [mkMCQ]
  rw [isSomeMapEq]
  apply pyIndex?_isSome_of_mem
  rw [(hsh _).mem_iff]
  simp

lemma generate_mcqs_isSome (shuffle : List Str → List Str)
    (hsh : ∀ l, List.Perm (shuffle l) l) (text : Str) (n : Int) :
    (generate_mcqs shuffle text n).isSome := by
  unfold generate_mcqs
  have h := optMap_isSome
    (f := mkMCQ shuffle (top_keywords text (n + 3)) (sentences text))
    (l := pySlice n (top_keywords text (n + 3)))
    (fun a _ => mkMCQ_isSome shuffle hsh _ _ a)
  rw [Option.isSome_iff_exists] at h
  obtain ⟨out, hout⟩ := h
  simp [hout]

end Totality

/-- Claim C5: for every request (any text, any type string, any optional
count including zero and negative values) the dispatcher returns a value
and the fallible MCQ generator never fails, provided the shuffle is a
permutation; every branch of the embedding is a total function. -/
theorem c5_no_exceptions (shuffle : List Str → List Str)
    (hsh : ∀ l, List.Perm (shuffle l) l) (payload : GenerateRequest)
    (text : Str) (n : Int) :
    (generate shuffle payload).isSome ∧ (generate_mcqs shuffle text n).isSome := by
  refine ⟨?_, generate_mcqs_isSome shuffle hsh text n⟩
  unfold generate
  by_cases h0 : pyStrip payload.text = []
  · simp [h0]
  · simp only [h0, if_false]
    split
    · simp
    · split
      · simp
      · split
        · simp
        · split
          · rw [isSomeMapEq]
            exact generate_mcqs_isSome shuffle hsh _ _
          · split
            · rw [isSomeMapEq]
              exact generate_mcqs_isSome shuffle hsh _ _
            · split
              · simp
              · simp

/-- Claim C5 witness: a concrete quiz request with the identity shuffle. -/
theorem c5_no_exceptions_witness :
    (generate (fun l => l) ⟨"cat".toList, "QUIZ".toList, some (-2)⟩).isSome ∧
      (generate_mcqs (fun l => l) ("cat".toList) (-2)).isSome :=
  c5_no_exceptions (fun l => l) (fun l => List.Perm.refl l)
    ⟨"cat".toList, "QUIZ".toList, some (-2)⟩ ("cat".toList) (-2)

/-- Claim C10: the response type echoes the request type lowercased when
the trimmed text is non-empty, and verbatim when the trimmed text is
empty. -/
theorem c10_type_echo (shuffle : List Str → List Str)
    (hsh : ∀ l, List.Perm (shuffle l) l) (payload : GenerateRequest) :
    (generate shuffle payload).map GenerateResponse.type =
      some (if pyStrip payload.text = [] then payload.type else pyLower payload.type) := by
  unfold generate
  by_cases h0 : pyStrip payload.text = []
  · simp [h0]
  · rw [if_neg h0]
    simp only [h0, if_false]
    have h := generate_mcqs_isSome shuffle hsh (pyStrip payload.text)
      (match payload.count with | none => 5 | some c => if c = 0 then 5 else c)
    rw [Option.isSome_iff_exists] at h
    obtain ⟨ms, hms⟩ := h
    split
    · simp
    · split
      · simp
      · split
        · simp
        · split
          · rw [hms]
            simp
          · split
            · rw [hms]
              simp
            · split
              · simp
              · simp

/-- Claim C10 witness: a mixed-case type with non-blank text is echoed
lowercased. -/
theorem c10_type_echo_witness :
    (generate (fun l => l) ⟨"dog".toList, "NoTeS".toList, none⟩).map GenerateResponse.type =
      some (if pyStrip ("dog".toList) = [] then "NoTeS".toList else pyLower ("NoTeS".toList)) :=
  c10_type_echo (fun l => l) (fun l => List.Perm.refl l) ⟨"dog".toList, "NoTeS".toList, none⟩

/-- The request of the worked summary example: the cats text with type
summary and count 2. -/
def catsRequest : GenerateRequest :=
  { text := "Cats are mammals. Cats hunt mice. Mice are small.".toList,
    type := "summary".toList,
    count := some 2 }

/-- Claim C1 counterexample: on the cats example request the dispatcher
does not return the first two sentences joined, because it calls the
summary generator without forwarding the requested count. -/
theorem c1_counterexample :
    (generate (fun l => l) catsRequest).map GenerateResponse.summary ≠
      some (some ("Cats are mammals Cats hunt mice".toList)) := by
  decide

/-- Claim C1 (amended): on the cats example request the dispatcher returns
the first three sentences joined by single spaces, since the summary
branch ignores the requested count and uses the default of three. -/
theorem c1_summary_example :
    generate (fun l => l) catsRequest =
      some { type := "summary".toList,
             summary := some ("Cats are mammals Cats hunt mice Mice are small".toList) } := by
  decide

section KeywordMachinery

lemma mem_dedupF {w : Str} : ∀ {l : List Str}, w ∈ dedupF l ↔ w ∈ l := by
  intro l
  induction l with
  | nil => simp [dedupF]
  | cons v vs ih =>
    by_cases hwv : w = v
    · subst hwv
      simp [dedupF]
    · simp [dedupF, List.mem_filter, hwv, ih]

lemma nodup_dedupF : ∀ (l : List Str), (dedupF l).Nodup := by
  intro l
  induction l with
  | nil => simp [dedupF]
  | cons v vs ih =>
    rw [dedupF, List.nodup_cons]
    constructor
    · intro h
      have := (List.mem_filter.mp h).2
      simp at this
    · exact ih.filter _

lemma dedupF_filter (p : Str → Bool) : ∀ (l : List Str),
    dedupF (l.filter p) = (dedupF l).filter p := by
  intro l
  induction l with
  | nil => simp [dedupF]
  | cons x xs ih =>
    by_cases hx : p x = true
    · rw [show (x :: xs).filter p = x :: xs.filter p by simp [hx]]
      rw [dedupF, dedupF, ih, List.filter_cons_of_pos hx]
      rw [List.filter_filter, List.filter_filter]
      exact congrArg _ (List.filter_congr (fun v _ => by rw [Bool.and_comm]))
    · rw [show (x :: xs).filter p = xs.filter p by simp [hx]]
      rw [dedupF, ih, List.filter_cons_of_neg hx, List.filter_filter]
      refine (List.filter_congr (fun v _ => ?_)).symm
      by_cases hvx : v = x
      · subst hvx
        simp [hx]
      · simp [hvx]

lemma keys_addW_mem {acc : List (Str × Nat)} {w : Str} (h : w ∈ acc.map Prod.fst) :
    (addW acc w).map Prod.fst = acc.map Prod.fst := by
  have hany : (acc.any fun p => decide (p.1 = w)) = true := by
    rcases List.mem_map.mp h with ⟨p, hp, hpw⟩
    exact List.any_eq_true.mpr ⟨p, hp, by simp [hpw]⟩
  rw [addW, if_pos hany, List.map_map]
  refine List.map_congr_left (fun p _ => ?_)
  by_cases hpw : p.1 = w <;> simp [hpw]

lemma keys_addW_not_mem {acc : List (Str × Nat)} {w : Str} (h : w ∉ acc.map Prod.fst) :
    (addW acc w).map Prod.fst = acc.map Prod.fst ++ [w] := by
  have hany : (acc.any fun p => decide (p.1 = w)) = false := by
    rw [Bool.eq_false_iff]
    intro hc
    rcases List.any_eq_true.mp hc with ⟨p, hp, hpw⟩
    exact h (List.mem_map.mpr ⟨p, hp, by simpa using hpw⟩)
  rw [addW, if_neg (by simp [hany]), List.map_append]
  rfl

lemma foldl_keys : ∀ (ws : List Str) (acc : List (Str × Nat)),
    (List.foldl addW acc ws).map Prod.fst =
      acc.map Prod.fst ++
        dedupF (ws.filter fun w => decide (w ∉ acc.map Prod.fst)) := by
  intro ws
  induction ws with
  | nil => intro acc; simp [dedupF]
  | cons w ws' ih =>
    intro acc
    rw [List.foldl_cons, ih]
    by_cases hw : w ∈ acc.map Prod.fst
    · rw [keys_addW_mem hw]
      rw [show ((w :: ws').filter fun v => decide (v ∉ acc.map Prod.fst)) =
            ws'.filter fun v => decide (v ∉ acc.map Prod.fst) by simp [hw]]
    · rw [keys_addW_not_mem hw]
      rw [show ((w :: ws').filter fun v => decide (v ∉ acc.map Prod.fst)) =
            w :: ws'.filter fun v => decide (v ∉ acc.map Prod.fst) by simp [hw]]
      rw [dedupF, List.append_assoc]
      refine congrArg _ ?_
      rw [List.singleton_append]
      refine congrArg _ ?_
      have hsplit : (ws'.filter fun v => decide (v ∉ acc.map Prod.fst ++ [w])) =
          ((ws'.filter fun v => decide (v ∉ acc.map Prod.fst)).filter
            fun v => decide (v ≠ w)) := by
        rw [List.filter_filter]
        refine List.filter_congr (fun v _ => ?_)
        by_cases h1 : v = w
        · subst h1
          simp
        · by_cases h2 : v ∈ acc.map Prod.fst <;> simp [h1, h2]
      rw [hsplit, dedupF_filter]

lemma freqList_keys (text : Str) :
    (freqList text).map Prod.fst = dedupF (survivors text) := by
  rw [freqList, foldl_keys]
  simp

lemma freqList_keys_nodup (text : Str) : ((freqList text).map Prod.fst).Nodup := by
  rw [freqList_keys]
  exact nodup_dedupF _

lemma cntIn_eq_zero_of_not_mem {w : Str} :
    ∀ {acc : List (Str × Nat)}, w ∉ acc.map Prod.fst → cntIn w acc = 0 := by
  intro acc
  induction acc with
  | nil => intro _; rfl
  | cons p rest ih =>
    intro h
    have hpw : ¬ p.1 = w := by
      intro he
      exact h (List.mem_map.mpr ⟨p, List.mem_cons_self _ _, he⟩)
    rw [cntIn, if_neg hpw]
    exact ih (fun hm => h (by
      rcases List.mem_map.mp hm with ⟨q, hq, hqw⟩
      exact List.mem_map.mpr ⟨q, List.mem_cons_of_mem _ hq, hqw⟩))

lemma cntIn_append (w : Str) : ∀ (a b : List (Str × Nat)),
    cntIn w (a ++ b) = if w ∈ a.map Prod.fst then cntIn w a else cntIn w b := by
  intro a
  induction a with
  | nil => intro b; simp [cntIn]
  | cons p rest ih =>
    intro b
    by_cases hpw : p.1 = w
    · rw [List.cons_append, cntIn, if_pos hpw, if_pos, cntIn, if_pos hpw]
      exact List.mem_map.mpr ⟨p, List.mem_cons_self _ _, hpw⟩
    · rw [List.cons_append, cntIn, if_neg hpw, ih b]
      have hmem : w ∈ (p :: rest).map Prod.fst ↔ w ∈ rest.map Prod.fst := by
        simp only [List.map_cons, List.mem_cons]
        constructor
        · rintro (h1 | h1)
          · exact absurd h1.symm hpw
          · exact h1
        · exact Or.inr
      by_cases hr : w ∈ rest.map Prod.fst
      · rw [if_pos hr, if_pos (hmem.mpr hr), cntIn, if_neg hpw]
      · rw [if_neg hr, if_neg (fun hc => hr (hmem.mp hc))]

lemma cntIn_mapUpd_ne {v w : Str} (h : ¬ w = v) (acc : List (Str × Nat)) :
    cntIn w (acc.map fun p => if p.1 = v then (p.1, p.2 + 1) else p) = cntIn w acc := by
  induction acc with
  | nil => rfl
  | cons p rest ih =>
    by_cases hpv : p.1 = v
    · rw [List.map_cons, if_pos hpv]
      rw [show cntIn w ((p.1, p.2 + 1) :: rest.map fun p => if p.1 = v then (p.1, p.2 + 1) else p)
            = if p.1 = w then p.2 + 1 else cntIn w (rest.map fun p => if p.1 = v then (p.1, p.2 + 1) else p) from rfl]
      have hpw : ¬ p.1 = w := fun he => h (he ▸ hpv)
      rw [if_neg hpw, ih, cntIn, if_neg hpw]
    · rw [List.map_cons, if_neg hpv]
      by_cases hpw : p.1 = w
      · rw [cntIn, if_pos hpw, cntIn, if_pos hpw]
      · rw [cntIn, if_neg hpw, ih, cntIn, if_neg hpw]

lemma cntIn_mapUpd_mem {v : Str} : ∀ {acc : List (Str × Nat)}, v ∈ acc.map Prod.fst →
    cntIn v (acc.map fun p => if p.1 = v then (p.1, p.2 + 1) else p) = cntIn v acc + 1 := by
  intro acc
  induction acc with
  | nil => intro h; simp at h
  | cons p rest ih =>
    intro h
    by_cases hpv : p.1 = v
    · rw [List.map_cons, if_pos hpv]
      rw [show cntIn v ((p.1, p.2 + 1) :: rest.map fun p => if p.1 = v then (p.1, p.2 + 1) else p)
            = if p.1 = v then p.2 + 1 else cntIn v (rest.map fun p => if p.1 = v then (p.1, p.2 + 1) else p) from rfl]
      rw [if_pos hpv, cntIn, if_pos hpv]
    · rw [List.map_cons, if_neg hpv, cntIn, if_neg hpv, cntIn, if_neg hpv]
      apply ih
      rcases List.mem_cons.mp (List.map_cons Prod.fst p rest ▸ h) with h1 | h1
      · exact absurd h1.symm hpv
      · exact h1

lemma cntIn_addW (acc : List (Str × Nat)) (v w : Str) :
    cntIn w (addW acc v) = cntIn w acc + (if v = w then 1 else 0) := by
  by_cases hany : (acc.any fun p => decide (p.1 = v)) = true
  · have hv : v ∈ acc.map Prod.fst := by
      rcases List.any_eq_true.mp hany with ⟨p, hp, hpv⟩
      exact List.mem_map.mpr ⟨p, hp, by simpa using hpv⟩
    rw [addW, if_pos hany]
    by_cases hwv : w = v
    · subst hwv
      rw [cntIn_mapUpd_mem hv, if_pos rfl]
    · rw [cntIn_mapUpd_ne hwv, if_neg (fun he => hwv he.symm)]
      omega
  · have hv : v ∉ acc.map Prod.fst := by
      intro hc
      rcases List.mem_map.mp hc with ⟨p, hp, hpv⟩
      exact hany (List.any_eq_true.mpr ⟨p, hp, by simp [hpv]⟩)
    rw [addW, if_neg hany, cntIn_append]
    by_cases hw : w ∈ acc.map Prod.fst
    · have hvw : ¬ v = w := fun he => hv (he ▸ hw)
      rw [if_pos hw, if_neg hvw]
      omega
    · rw [if_neg hw, cntIn_eq_zero_of_not_mem hw]
      by_cases hvw : v = w
      · rw [cntIn, if_pos hvw, if_pos hvw]
      · rw [cntIn, if_neg hvw, if_neg hvw]
        rfl

lemma foldl_cnt : ∀ (ws : List Str) (acc : List (Str × Nat)) (w : Str),
    cntIn w (List.foldl addW acc ws) = cntIn w acc + List.count w ws := by
  intro ws
  induction ws with
  | nil => intro acc w; simp
  | cons v ws' ih =>
    intro acc w
    rw [List.foldl_cons, ih, cntIn_addW, List.count_cons]
    by_cases hvw : v = w
    · simp only [hvw, if_pos rfl, beq_self_eq_true, if_true]
      omega
    · have hb : (v == w) = false := by
        simp [hvw]
      rw [if_neg hvw, hb]
      simp

lemma cntIn_freqList (text : Str) (w : Str) :
    cntIn w (freqList text) = kwCount text w := by
  rw [freqList, foldl_cnt, kwCount]
  simp [cntIn]

lemma cntIn_of_mem_nodup : ∀ {l : List (Str × Nat)} {p : Str × Nat},
    (l.map Prod.fst).Nodup → p ∈ l → cntIn p.1 l = p.2 := by
  intro l
  induction l with
  | nil => intro p _ hp; simp at hp
  | cons q rest ih =>
    intro p hnd hp
    rw [List.map_cons, List.nodup_cons] at hnd
    rcases List.mem_cons.mp hp with h1 | h1
    · subst h1
      rw [cntIn, if_pos rfl]
    · have hq : ¬ q.1 = p.1 := by
        intro he
        exact hnd.1 (he ▸ List.mem_map.mpr ⟨p, h1, rfl⟩)
      rw [cntIn, if_neg hq]
      exact ih hnd.2 h1

lemma freqList_cnt {text : Str} {p : Str × Nat} (hp : p ∈ freqList text) :
    p.2 = kwCount text p.1 := by
  rw [← cntIn_of_mem_nodup (freqList_keys_nodup text) hp, cntIn_freqList]

end KeywordMachinery

section SortMachinery

lemma insertDesc_perm (x : Str × Nat) : ∀ (l : List (Str × Nat)),
    (insertDesc x l).Perm (x :: l) := by
  intro l
  induction l with
  | nil => exact List.Perm.refl _
  | cons y ys ih =>
    by_cases hxy : x.2 < y.2
    · rw [insertDesc, if_pos hxy]
      exact (ih.cons y).trans (List.Perm.swap x y ys)
    · rw [insertDesc, if_neg hxy]

lemma sortDesc_perm : ∀ (l : List (Str × Nat)), (sortDesc l).Perm l := by
  intro l
  induction l with
  | nil => exact List.Perm.refl _
  | cons x xs ih =>
    exact (insertDesc_perm x (sortDesc xs)).trans (ih.cons x)

lemma insertDesc_pairwise {Q : (Str × Nat) → (Str × Nat) → Prop} :
    ∀ {l : List (Str × Nat)} {x : Str × Nat},
      l.Pairwise (fun a b => b.2 < a.2 ∨ (a.2 = b.2 ∧ Q a b)) →
      (∀ y ∈ l, Q x y) →
      (insertDesc x l).Pairwise (fun a b => b.2 < a.2 ∨ (a.2 = b.2 ∧ Q a b)) := by
  intro l
  induction l with
  | nil => intro x _ _; simp [insertDesc]
  | cons y ys ih =>
    intro x hl hx
    rcases List.pairwise_cons.mp hl with ⟨hy, hys⟩
    by_cases hxy : x.2 < y.2
    · rw [insertDesc, if_pos hxy]
      refine List.pairwise_cons.mpr ⟨?_, ih hys (fun z hz => hx z (List.mem_cons_of_mem _ hz))⟩
      intro z hz
      have hz' : z = x ∨ z ∈ ys := by
        have := (insertDesc_perm x ys).mem_iff.mp hz
        simpa using this
      rcases hz' with rfl | hz'
      · exact Or.inl hxy
      · exact hy z hz'
    · rw [insertDesc, if_neg hxy]
      push_neg at hxy
      refine List.pairwise_cons.mpr ⟨?_, hl⟩
      intro z hz
      rcases List.mem_cons.mp hz with h1 | hz'
      · subst h1
        rcases Nat.lt_or_ge z.2 x.2 with hlt | hge
        · exact Or.inl hlt
        · exact Or.inr ⟨Nat.le_antisymm hge hxy, hx z (List.mem_cons_self _ _)⟩
      · have hryz := hy z hz'
        have hz2 : z.2 ≤ y.2 := by
          rcases hryz with h | ⟨h, _⟩
          · exact Nat.le_of_lt h
          · exact Nat.le_of_eq h.symm
        rcases Nat.lt_or_ge z.2 x.2 with hlt | hge
        · exact Or.inl hlt
        · exact Or.inr ⟨Nat.le_antisymm hge (Nat.le_trans hz2 hxy),
            hx z (List.mem_cons_of_mem _ hz')⟩

lemma sortDesc_pairwise {Q : (Str × Nat) → (Str × Nat) → Prop} :
    ∀ {l : List (Str × Nat)}, l.Pairwise Q →
      (sortDesc l).Pairwise (fun a b => b.2 < a.2 ∨ (a.2 = b.2 ∧ Q a b)) := by
  intro l
  induction l with
  | nil => intro _; simp [sortDesc]
  | cons x xs ih =>
    intro hl
    rcases List.pairwise_cons.mp hl with ⟨hx, hxs⟩
    exact insertDesc_pairwise (ih hxs)
      (fun y hy => hx y ((sortDesc_perm xs).mem_iff.mp hy))

lemma idxIn_pairwise : ∀ {m : List Str}, m.Nodup →
    m.Pairwise (fun u v => idxIn u m < idxIn v m) := by
  intro m
  induction m with
  | nil => intro _; simp
  | cons w m' ih =>
    intro hnd
    rw [List.nodup_cons] at hnd
    refine List.pairwise_cons.mpr ⟨?_, ?_⟩
    · intro v hv
      have hvw : ¬ w = v := fun he => hnd.1 (he ▸ hv)
      rw [idxIn, if_pos rfl, idxIn, if_neg hvw]
      exact Nat.succ_pos _
    · refine (ih hnd.2).imp_of_mem (fun {u} {v} hu hv huv => ?_)
      have hwu : ¬ w = u := fun he => hnd.1 (he ▸ hu)
      have hwv : ¬ w = v := fun he => hnd.1 (he ▸ hv)
      rw [idxIn, if_neg hwu, idxIn, if_neg hwv]
      omega

end SortMachinery

section KeywordAssembly

lemma pySlice_nonneg {n : Int} (h : 0 ≤ n) (l : List α) : pySlice n l = l.take n.toNat := by
  rw [pySlice, if_pos h]

lemma pySlice_sublist (n : Int) (l : List α) : (pySlice n l).Sublist l := by
  rw [pySlice]
  split
  · exact List.take_sublist _ _
  · exact List.take_sublist _ _

lemma map_fst_sortDesc_perm (text : Str) :
    (((sortDesc (freqList text)).map Prod.fst)).Perm (dedupF (survivors text)) := by
  have h := (sortDesc_perm (freqList text)).map Prod.fst
  rwa [freqList_keys] at h

lemma top_keywords_subset_dedupF {text : Str} {k : Int} {w : Str}
    (h : w ∈ top_keywords text k) : w ∈ dedupF (survivors text) := by
  have h1 : w ∈ (sortDesc (freqList text)).map Prod.fst :=
    ((pySlice_sublist k (sortDesc (freqList text))).map Prod.fst).subset h
  exact (map_fst_sortDesc_perm text).mem_iff.mp h1

lemma top_keywords_mem_survivors {text : Str} {k : Int} {w : Str}
    (h : w ∈ top_keywords text k) : w ∈ survivors text :=
  mem_dedupF.mp (top_keywords_subset_dedupF h)

lemma top_keywords_nodup (text : Str) (k : Int) : (top_keywords text k).Nodup := by
  have hnd : ((sortDesc (freqList text)).map Prod.fst).Nodup :=
    (map_fst_sortDesc_perm text).nodup_iff.mpr (nodup_dedupF _)
  exact ((pySlice_sublist k (sortDesc (freqList text))).map Prod.fst).nodup hnd

lemma survivors_prop {text : Str} {w : Str} (h : w ∈ survivors text) :
    3 ≤ w.length ∧ w ∉ stopWords := by
  have h2 := (List.mem_filter.mp h).2
  simp only [Bool.not_eq_true', Bool.or_eq_false_iff, decide_eq_false_iff_not] at h2
  exact ⟨Nat.le_of_not_lt h2.2, h2.1⟩

lemma sortDesc_freqList_pairwise (text : Str) :
    (sortDesc (freqList text)).Pairwise
      (fun a b => b.2 < a.2 ∨ (a.2 = b.2 ∧ kwRank text a.1 < kwRank text b.1)) := by
  have hq : (freqList text).Pairwise
      (fun a b => kwRank text a.1 < kwRank text b.1) := by
    have hidx := idxIn_pairwise (nodup_dedupF (survivors text))
    rw [← freqList_keys] at hidx
    have h2 := (List.pairwise_map).mp hidx
    refine h2.imp_of_mem (fun {a} {b} _ _ hab => ?_)
    rw [kwRank, kwRank, ← freqList_keys]
    exact hab
  exact sortDesc_pairwise hq

lemma sortDesc_freqList_kwOrder (text : Str) :
    (sortDesc (freqList text)).Pairwise (fun a b => kwOrder text a.1 b.1) := by
  refine (sortDesc_freqList_pairwise text).imp_of_mem (fun {a} {b} ha hb hab => ?_)
  have ha' : a ∈ freqList text := (sortDesc_perm _).mem_iff.mp ha
  have hb' : b ∈ freqList text := (sortDesc_perm _).mem_iff.mp hb
  have hca := freqList_cnt ha'
  have hcb := freqList_cnt hb'
  rcases hab with h | ⟨h1, h2⟩
  · exact Or.inl (by rw [← hca, ← hcb]; exact h)
  · exact Or.inr ⟨by rw [← hca, ← hcb]; exact h1, h2⟩

lemma sortDesc_freqList_length (text : Str) :
    (sortDesc (freqList text)).length = (dedupF (survivors text)).length := by
  rw [(sortDesc_perm _).length_eq, ← freqList_keys, List.length_map]

lemma top_keywords_length (text : Str) {k : Int} (hk : 0 ≤ k) :
    (top_keywords text k).length = min k.toNat (dedupF (survivors text)).length := by
  rw [top_keywords, pySlice_nonneg hk, List.length_map, List.length_take,
    sortDesc_freqList_length]

end KeywordAssembly

/-- Claim C6: the keyword extractor lists distinct surviving tokens in
strictly decreasing order of occurrence count, breaking ties by first
occurrence, and returns exactly the top k of that ordering: the output is
pairwise ordered, draws from the distinct survivors, has length
min k (number of distinct survivors), and every omitted survivor is
ordered after every returned one. -/
theorem c6_keyword_order (text : Str) (k : Int) (hk : 0 ≤ k) :
    (top_keywords text k).Pairwise (kwOrder text) ∧
      (∀ v ∈ top_keywords text k, v ∈ dedupF (survivors text)) ∧
      (top_keywords text k).length = min k.toNat (dedupF (survivors text)).length ∧
      (∀ w ∈ dedupF (survivors text), w ∉ top_keywords text k →
        ∀ v ∈ top_keywords text k, kwOrder text v w) := by
  have hout_eq : top_keywords text k =
      ((sortDesc (freqList text)).take k.toNat).map Prod.fst := by
    rw [top_keywords, pySlice_nonneg hk]
  refine ⟨?_, fun v hv => top_keywords_subset_dedupF hv, top_keywords_length text hk, ?_⟩
  · rw [hout_eq]
    exact List.pairwise_map.mpr
      ((sortDesc_freqList_kwOrder text).sublist (List.take_sublist _ _))
  · intro w hw hwout v hv
    rw [← freqList_keys] at hw
    obtain ⟨pw, hpwfl, hpw1⟩ := List.mem_map.mp hw
    have hpws : pw ∈ sortDesc (freqList text) := (sortDesc_perm _).mem_iff.mpr hpwfl
    rw [← List.take_append_drop k.toNat (sortDesc (freqList text))] at hpws
    rcases List.mem_append.mp hpws with hptake | hpdrop
    · exact absurd (hout_eq ▸ List.mem_map.mpr ⟨pw, hptake, hpw1⟩) hwout
    · obtain ⟨pv, hpvtake, hpv1⟩ := List.mem_map.mp (hout_eq ▸ hv)
      have hp := sortDesc_freqList_kwOrder text
      rw [← List.take_append_drop k.toNat (sortDesc (freqList text))] at hp
      have hcross := (List.pairwise_append.mp hp).2.2 pv hpvtake pw hpdrop
      rw [hpv1, hpw1] at hcross
      exact hcross

/-- Claim C6 witness: the ordering properties at a concrete text and k. -/
theorem c6_keyword_order_witness :
    (top_keywords ("dog dog cat cat bird fish fish fish".toList) 8).Pairwise
        (kwOrder ("dog dog cat cat bird fish fish fish".toList)) ∧
      (∀ v ∈ top_keywords ("dog dog cat cat bird fish fish fish".toList) 8,
        v ∈ dedupF (survivors ("dog dog cat cat bird fish fish fish".toList))) ∧
      (top_keywords ("dog dog cat cat bird fish fish fish".toList) 8).length =
        min (Int.toNat 8)
          (dedupF (survivors ("dog dog cat cat bird fish fish fish".toList))).length ∧
      (∀ w ∈ dedupF (survivors ("dog dog cat cat bird fish fish fish".toList)),
        w ∉ top_keywords ("dog dog cat cat bird fish fish fish".toList) 8 →
        ∀ v ∈ top_keywords ("dog dog cat cat bird fish fish fish".toList) 8,
          kwOrder ("dog dog cat cat bird fish fish fish".toList) v w) :=
  c6_keyword_order ("dog dog cat cat bird fish fish fish".toList) 8 (by decide)

/-- Claim C7: every extracted keyword has length at least 3 and is not a
stop word; the output has no duplicates and at most k entries. -/
theorem c7_keyword_filter (text : Str) (k : Int) (hk : 0 ≤ k) :
    (∀ w ∈ top_keywords text k, 3 ≤ w.length ∧ w ∉ stopWords) ∧
      (top_keywords text k).Nodup ∧ (top_keywords text k).length ≤ k.toNat := by
  refine ⟨fun w hw => survivors_prop (top_keywords_mem_survivors hw),
    top_keywords_nodup text k, ?_⟩
  rw [top_keywords_length text hk]
  exact min_le_left _ _

/-- Claim C7 witness: the filter properties at a concrete text and k. -/
theorem c7_keyword_filter_witness :
    (∀ w ∈ top_keywords ("dog dog the cat an if bird-house xy".toList) 2,
        3 ≤ w.length ∧ w ∉ stopWords) ∧
      (top_keywords ("dog dog the cat an if bird-house xy".toList) 2).Nodup ∧
      (top_keywords ("dog dog the cat an if bird-house xy".toList) 2).length ≤
        Int.toNat 2 :=
  c7_keyword_filter ("dog dog the cat an if bird-house xy".toList) 2 (by decide)

/-- Claim C8: the mindmap has exactly one root node, labelled Study Notes;
every edge leaves the root and lands on an existing node; the node count
is one plus the number of extracted keywords, which is capped at 6. -/
theorem c8_mindmap_star (text : Str) :
    ((generate_mindmap text).nodes.countP fun nd => decide (nd.id = "root".toList)) = 1 ∧
      (∀ nd ∈ (generate_mindmap text).nodes,
        nd.id = "root".toList → nd.label = "Study Notes".toList) ∧
      (∀ e ∈ (generate_mindmap text).edges,
        e.frm = "root".toList ∧ ∃ nd ∈ (generate_mindmap text).nodes, nd.id = e.toId) ∧
      (generate_mindmap text).nodes.length =
        1 + min 6 (dedupF (survivors text)).length := by
  have hnid : ∀ (i : Nat), ¬ ("n".toList ++ (Nat.repr i).toList = "root".toList) := by
    intro i h
    have h' : 'n' :: (Nat.repr i).toList = 'r' :: "oot".toList := h
    injection h' with h1 _
    exact absurd h1 (by decide)
  refine ⟨?_, ?_, ?_, ?_⟩
  · simp only [generate_mindmap, List.countP_cons]
    rw [List.countP_eq_zero.mpr, if_pos (by simp)]
    · intro nd hnd
      obtain ⟨p, _, rfl⟩ := List.mem_map.mp hnd
      simp only [decide_eq_true_eq]
      exact hnid p.1
  · intro nd hnd hid
    simp only [generate_mindmap] at hnd
    rcases List.mem_cons.mp hnd with h1 | h1
    · rw [h1]
    · obtain ⟨p, _, rfl⟩ := List.mem_map.mp h1
      exact absurd hid (hnid p.1)
  · intro e he
    simp only [generate_mindmap] at he
    obtain ⟨p, hp, rfl⟩ := List.mem_map.mp he
    refine ⟨rfl, ?_⟩
    refine ⟨{ id := "n".toList ++ (Nat.repr p.1).toList, label := pyTitle p.2 }, ?_, rfl⟩
    simp only [generate_mindmap]
    exact List.mem_cons_of_mem _ (List.mem_map.mpr ⟨p, hp, rfl⟩)
  · simp only [generate_mindmap, List.length_cons, List.length_map, List.enum_length]
    rw [top_keywords_length text (by norm_num)]
    omega

section McqInvariant

lemma nodup_length_filter_ne {k : Str} : ∀ {l : List Str}, l.Nodup →
    l.length - 1 ≤ (l.filter fun d => decide (d ≠ k)).length := by
  intro l
  induction l with
  | nil => intro _; simp
  | cons x xs ih =>
    intro hnd
    rw [List.nodup_cons] at hnd
    by_cases hxk : x = k
    · subst hxk
      rw [List.filter_cons_of_neg (by simp)]
      rw [List.filter_eq_self.mpr (fun d hd => by
        have hdx : ¬ d = x := fun he => hnd.1 (he ▸ hd)
        simp [hdx])]
      simp
    · rw [List.filter_cons_of_pos (by simp [hxk])]
      have := ih hnd.2
      simp only [List.length_cons]
      omega

end McqInvariant

/-- Claim C2 counterexample: on a text with a single extracted keyword and
the identity shuffle, the generated MCQ is not the fallback, yet its
options repeat the padded distractor three times, so they are not
pairwise distinct. -/
theorem c2_counterexample :
    generate_mcqs (fun l => l) ("cat".toList) 1 =
        some [{ question := "cat".toList,
                options := ["Not cat".toList, "Not cat".toList, "Not cat".toList,
                  "cat".toList],
                answer_index := 3 }] ∧
      ¬ (["Not cat".toList, "Not cat".toList, "Not cat".toList,
          "cat".toList] : List Str).Nodup ∧
      ({ question := "cat".toList,
         options := ["Not cat".toList, "Not cat".toList, "Not cat".toList,
           "cat".toList],
         answer_index := 3 } : MCQ) ≠ fallbackMCQ := by
  refine ⟨?_, ?_, ?_⟩ <;> decide

/-- Claim C2 (amended): every MCQ other than the fallback has exactly 4
options, and the option at answer index is the keyword the question was
built from; the options are pairwise distinct whenever at least 4
keywords were extracted.  With fewer keywords the identical padding
string may be appended more than once, so distinctness can fail. -/
theorem c2_mcq_invariant (shuffle : List Str → List Str)
    (hsh : ∀ l, List.Perm (shuffle l) l) (text : Str) (n : Int)
    (out : List MCQ) (hout : generate_mcqs shuffle text n = some out)
    (m : MCQ) (hm : m ∈ out) (hnf : m ≠ fallbackMCQ) :
    m.options.length = 4 ∧
      ∃ k ∈ top_keywords text (n + 3),
        m.options.get? m.answer_index = some k ∧
          (4 ≤ (top_keywords text (n + 3)).length → m.options.Nodup) := by
  simp only [generate_mcqs] at hout
  split at hout
  · exact absurd hout (by simp)
  · rename_i out0 ho
    have hout' : (if out0 = [] then [fallbackMCQ] else out0) = out :=
      Option.some.inj hout
    by_cases h0 : out0 = []
    · rw [if_pos h0] at hout'
      rw [← hout'] at hm
      exact absurd (List.mem_singleton.mp hm) hnf
    · rw [if_neg h0] at hout'
      subst hout'
      obtain ⟨k, hk, hmk⟩ := optMap_mem ho m hm
      have hkin : k ∈ top_keywords text (n + 3) :=
        (pySlice_sublist n _).subset hk
      simp only [mkMCQ] at hmk
      rw [Option.map_eq_some'] at hmk
      obtain ⟨i, hidx, rfl⟩ := hmk
      have hperm := hsh
        ((((top_keywords text (n + 3)).filter fun d => decide (d ≠ k)).take 3 ++
            List.replicate
              (3 - (((top_keywords text (n + 3)).filter fun d => decide (d ≠ k)).take 3).length)
              ("Not ".toList ++ k)) ++ [k])
      have hdslen : (((top_keywords text (n + 3)).filter fun d => decide (d ≠ k)).take 3).length ≤ 3 := by
        rw [List.length_take]
        exact min_le_left _ _
      refine ⟨?_, k, hkin, ?_, ?_⟩
      · show (shuffle _).length = 4
        rw [hperm.length_eq]
        simp only [List.length_append, List.length_replicate, List.length_singleton]
        omega
      · exact pyIndex?_get? hidx
      · intro h4
        have hnd := top_keywords_nodup text (n + 3)
        have hfle := nodup_length_filter_ne (k := k) hnd
        have hfl3 : 3 ≤ (((top_keywords text (n + 3)).filter fun d => decide (d ≠ k))).length := by
          omega
        have hds3 : (((top_keywords text (n + 3)).filter fun d => decide (d ≠ k)).take 3).length = 3 := by
          rw [List.length_take]
          omega
        show (shuffle _).Nodup
        rw [hperm.nodup_iff]
        rw [hds3, Nat.sub_self]
        rw [show List.replicate 0 ("Not ".toList ++ k) = [] from rfl, List.append_nil]
        have hdsnd : (((top_keywords text (n + 3)).filter fun d => decide (d ≠ k)).take 3).Nodup :=
          ((List.take_sublist _ _).trans (List.filter_sublist _)).nodup hnd
        refine List.Nodup.append hdsnd (by simp) ?_
        rw [List.disjoint_singleton]
        intro hc
        have := (List.mem_filter.mp ((List.take_sublist _ _).subset hc)).2
        simp at this

/-- Claim C2 witness: the invariant at a concrete four-keyword text with
the identity shuffle, checked on the first generated MCQ. -/
theorem c2_mcq_invariant_witness :
    ({ question := "alpha beta gamma delta".toList,
       options := ["beta".toList, "gamma".toList, "delta".toList, "alpha".toList],
       answer_index := 3 } : MCQ).options.length = 4 ∧
      ∃ k ∈ top_keywords ("alpha beta gamma delta".toList) (2 + 3),
        ({ question := "alpha beta gamma delta".toList,
           options := ["beta".toList, "gamma".toList, "delta".toList, "alpha".toList],
           answer_index := 3 } : MCQ).options.get?
            ({ question := "alpha beta gamma delta".toList,
               options := ["beta".toList, "gamma".toList, "delta".toList, "alpha".toList],
               answer_index := 3 } : MCQ).answer_index = some k ∧
          (4 ≤ (top_keywords ("alpha beta gamma delta".toList) (2 + 3)).length →
            ({ question := "alpha beta gamma delta".toList,
               options := ["beta".toList, "gamma".toList, "delta".toList, "alpha".toList],
               answer_index := 3 } : MCQ).options.Nodup) :=
  c2_mcq_invariant (fun l => l) (fun l => List.Perm.refl l)
    ("alpha beta gamma delta".toList) 2
    [{ question := "alpha beta gamma delta".toList,
       options := ["beta".toList, "gamma".toList, "delta".toList, "alpha".toList],
       answer_index := 3 },
     { question := "alpha beta gamma delta".toList,
       options := ["alpha".toList, "gamma".toList, "delta".toList, "beta".toList],
       answer_index := 3 }]
    (by decide)
    { question := "alpha beta gamma delta".toList,
      options := ["beta".toList, "gamma".toList, "delta".toList, "alpha".toList],
      answer_index := 3 }
    (by decide) (by decide)

end StudyHelper
